import Mathlib

set_option linter.unusedSectionVars false

/-!
Shallow embedding of the Distributed_GA repository.

Python dictionaries are modelled as association lists `List (K × V)` with
no duplicate keys (`nodupKeys`); `setEntry` is `d[k] = v` (replace the
binding in place when the key exists, append otherwise, matching dict
insertion-order semantics), `eraseKey` is `del d[k]` on a present key,
`lookupKey` is `d[k]` and `hasKey` is `k in d`.
-/

section AssocList

variable {K V : Type} [DecidableEq K]

/-- Membership test `k in d` on a Python dict. -/
def hasKey : List (K × V) → K → Bool
  | [], _ => false
  | p :: rest, k => decide (p.1 = k) || hasKey rest k

/-- Lookup `d[k]`, returning the first (with `nodupKeys`: the only) binding. -/
def lookupKey : List (K × V) → K → Option V
  | [], _ => none
  | p :: rest, k => if p.1 = k then some p.2 else lookupKey rest k

/-- Assignment `d[k] = v`: replace the binding in place if present, else append. -/
def setEntry : List (K × V) → K → V → List (K × V)
  | [], k, v => [(k, v)]
  | p :: rest, k, v => if p.1 = k then (k, v) :: rest else p :: setEntry rest k v

/-- Deletion `del d[k]`: remove the binding for `k` (dicts hold at most one). -/
def eraseKey : List (K × V) → K → List (K × V)
  | [], _ => []
  | p :: rest, k => if p.1 = k then eraseKey rest k else p :: eraseKey rest k

/-- A Python dict never holds two bindings for one key. -/
def nodupKeys (es : List (K × V)) : Prop :=
  (es.map Prod.fst).Nodup

instance nodupKeysDecidable (es : List (K × V)) : Decidable (nodupKeys es) :=
  List.nodupDecidable _

theorem hasKey_false_lookup {es : List (K × V)} {k : K}
    (h : hasKey es k = false) : lookupKey es k = none := by
  induction es with
  | nil => rfl
  | cons p rest ih =>
    simp only [hasKey, Bool.or_eq_false_iff, decide_eq_false_iff_not] at h
    simp only [lookupKey, if_neg h.1]
    exact ih h.2

theorem lookup_some_hasKey {es : List (K × V)} {k : K} {v : V}
    (h : lookupKey es k = some v) : hasKey es k = true := by
  by_contra hc
  rw [Bool.not_eq_true] at hc
  rw [hasKey_false_lookup hc] at h
  exact Option.noConfusion h

theorem lookupKey_setEntry_self (es : List (K × V)) (k : K) (v : V) :
    lookupKey (setEntry es k v) k = some v := by
  induction es with
  | nil => simp [setEntry, lookupKey]
  | cons p rest ih =>
    by_cases hp : p.1 = k
    · simp [setEntry, hp, lookupKey]
    · simp [setEntry, hp, lookupKey, ih]

theorem lookupKey_setEntry_ne (es : List (K × V)) {k k' : K} (v : V)
    (h : k' ≠ k) : lookupKey (setEntry es k v) k' = lookupKey es k' := by
  induction es with
  | nil =>
    simp only [setEntry, lookupKey]
    rw [if_neg (fun hc : k = k' => h hc.symm)]
  | cons p rest ih =>
    by_cases hp : p.1 = k
    · have hp' : ¬ (p.1 = k') := by
        rw [hp]; exact fun hc => h hc.symm
      simp only [setEntry, if_pos hp, lookupKey]
      rw [if_neg (fun hc : k = k' => h hc.symm), if_neg hp']
    · simp only [setEntry, if_neg hp, lookupKey]
      by_cases hp' : p.1 = k'
      · rw [if_pos hp', if_pos hp']
      · rw [if_neg hp', if_neg hp']
        exact ih

theorem lookupKey_eraseKey_self (es : List (K × V)) (k : K) :
    lookupKey (eraseKey es k) k = none := by
  induction es with
  | nil => rfl
  | cons p rest ih =>
    by_cases hp : p.1 = k
    · simpa [eraseKey, hp] using ih
    · simpa [eraseKey, hp, lookupKey] using ih

theorem lookupKey_eraseKey_ne (es : List (K × V)) {k k' : K}
    (h : k' ≠ k) : lookupKey (eraseKey es k) k' = lookupKey es k' := by
  induction es with
  | nil => rfl
  | cons p rest ih =>
    by_cases hp : p.1 = k
    · have hp' : ¬ (p.1 = k') := by
        rw [hp]; exact fun hc => h hc.symm
      simp only [eraseKey, if_pos hp, lookupKey, if_neg hp']
      exact ih
    · simp only [eraseKey, if_neg hp, lookupKey]
      by_cases hp' : p.1 = k'
      · rw [if_pos hp', if_pos hp']
      · rw [if_neg hp', if_neg hp']
        exact ih

theorem hasKey_eraseKey_self (es : List (K × V)) (k : K) :
    hasKey (eraseKey es k) k = false := by
  induction es with
  | nil => rfl
  | cons p rest ih =>
    by_cases hp : p.1 = k
    · simpa [eraseKey, hp] using ih
    · simpa [eraseKey, hp, hasKey] using ih

/-- Writing the same key twice keeps a single binding: the second write wins. -/
theorem setEntry_setEntry_same (es : List (K × V)) (k : K) (v w : V) :
    setEntry (setEntry es k v) k w = setEntry es k w := by
  induction es with
  | nil => simp [setEntry]
  | cons p rest ih =>
    by_cases hp : p.1 = k
    · simp [setEntry, hp]
    · simp [setEntry, hp, ih]

end AssocList

/-!
`src/DGA/Pool.py`.

`Subset_Pool(Pool)` holds a membership predicate `condition`, its dict
entries, and (inherited from `Pool`) its own list of registered
sub-views `subset_pools`, so views chain.  In Python the objects are
mutated in place; here every operation returns the updated value.
-/

/-- A `Subset_Pool`: `condition` predicate, own dict entries, and nested
registered sub-views (inherited `subset_pools` field). -/
inductive Subset_Pool (K V : Type) where
  | mk (condition : K → V → Bool) (entries : List (K × V))
       (subset_pools : List (Subset_Pool K V))

variable {K V : Type} [DecidableEq K]

def Subset_Pool.condition : Subset_Pool K V → (K → V → Bool)
  | .mk c _ _ => c

def Subset_Pool.entries : Subset_Pool K V → List (K × V)
  | .mk _ es _ => es

def Subset_Pool.subset_pools : Subset_Pool K V → List (Subset_Pool K V)
  | .mk _ _ subs => subs

mutual

/-- `Pool.__delitem__` running on a `Subset_Pool` object (the class does not
override it): first the loop `for sub_pool in self.subset_pools: if key in
sub_pool: del sub_pool[key]`, then `super().__delitem__(key)`.  At every
call site in `Pool.py` the key is present, so the dict delete succeeds. -/
def Subset_Pool.delitem : Subset_Pool K V → K → Subset_Pool K V
  | .mk c es subs, k => .mk c (eraseKey es k) (Subset_Pool.delSubs subs k)

/-- The deletion-cascade loop of `Pool.__delitem__` over registered views. -/
def Subset_Pool.delSubs : List (Subset_Pool K V) → K → List (Subset_Pool K V)
  | [], _ => []
  | s :: rest, k =>
    (if hasKey s.entries k then s.delitem k else s) :: Subset_Pool.delSubs rest k

end

mutual

/-- `Subset_Pool.__setitem__`: when `condition(key, value)` holds, run the
inherited `Pool.__setitem__` (cascade to own registered views, then the
dict assignment); otherwise do nothing. -/
def Subset_Pool.setitem : Subset_Pool K V → K → V → Subset_Pool K V
  | .mk c es subs, k, v =>
    if c k v then .mk c (setEntry es k v) (Subset_Pool.setSubs subs k v)
    else .mk c es subs

/-- The cascade loop of `Pool.__setitem__`: for each registered view, delete
the key if the condition no longer holds, else re-assign when it holds. -/
def Subset_Pool.setSubs : List (Subset_Pool K V) → K → V → List (Subset_Pool K V)
  | [], _, _ => []
  | s :: rest, k, v =>
    (if hasKey s.entries k && !(s.condition k v) then s.delitem k
     else if s.condition k v then s.setitem k v
     else s) :: Subset_Pool.setSubs rest k v

end

/-- A top-level `Pool`: dict entries plus registered subset pools. -/
structure Pool (K V : Type) where
  entries : List (K × V)
  subset_pools : List (Subset_Pool K V)

/-- `Pool.__setitem__`: cascade the change to every registered view, then
perform the dict assignment. -/
def Pool.setitem (p : Pool K V) (k : K) (v : V) : Pool K V :=
  ⟨setEntry p.entries k v, Subset_Pool.setSubs p.subset_pools k v⟩

/-- `Pool.__delitem__`: delete the key from every registered view containing
it, then `super().__delitem__(key)`, which raises `KeyError` when the key is
absent.  The returned flag is `false` exactly when `KeyError` is raised; the
returned pool is the object state at that point (views already mutated). -/
def Pool.delitem (p : Pool K V) (k : K) : Pool K V × Bool :=
  let subs := Subset_Pool.delSubs p.subset_pools k
  if hasKey p.entries k then (⟨eraseKey p.entries k, subs⟩, true)
  else (⟨p.entries, subs⟩, false)

/-- Seeding loop `for key, value in self.items(): sub_pool[key] = value`. -/
def seedSub (s : Subset_Pool K V) (items : List (K × V)) : Subset_Pool K V :=
  items.foldl (fun acc kv => acc.setitem kv.1 kv.2) s

/-- `Pool.add_subset_pool`: append the view, then seed it with every current
item (the write-gate of the view filters).  In Python the view is mutated in
place after being appended; seeding touches only the view itself, so this
equals appending the seeded view. -/
def Pool.add_subset_pool (p : Pool K V) (s : Subset_Pool K V) : Pool K V :=
  ⟨p.entries, p.subset_pools ++ [seedSub s p.entries]⟩

/-- `Pool.reinitialize_subsets`: re-seed every registered view with every
current item (assignments only; nothing is ever deleted here). -/
def Pool.reinitialize_subsets (p : Pool K V) : Pool K V :=
  ⟨p.entries, p.subset_pools.map (fun s => seedSub s p.entries)⟩

/-- The per-item body of the `Pool.update_subpools` loop: `if not
sub_pool.condition(key, value) and key in sub_pool: del sub_pool[key]
elif sub_pool.condition(key, value): sub_pool[key] = value`. -/
def updStep (s : Subset_Pool K V) (kv : K × V) : Subset_Pool K V :=
  if !(s.condition kv.1 kv.2) && hasKey s.entries kv.1 then s.delitem kv.1
  else if s.condition kv.1 kv.2 then s.setitem kv.1 kv.2
  else s

/-- The per-view loop body of `Pool.update_subpools`. -/
def updateSub (s : Subset_Pool K V) (items : List (K × V)) : Subset_Pool K V :=
  items.foldl updStep s

/-- `Pool.update_subpools`: for every registered view and every current pool
item, delete the item from the view if the condition fails, else re-assign. -/
def Pool.update_subpools (p : Pool K V) : Pool K V :=
  ⟨p.entries, p.subset_pools.map (fun s => updateSub s p.entries)⟩

/-! Basic facts about the cascade steps. -/

@[simp] theorem Subset_Pool.condition_mk (c : K → V → Bool) (es : List (K × V))
    (subs : List (Subset_Pool K V)) : (Subset_Pool.mk c es subs).condition = c := rfl

@[simp] theorem Subset_Pool.entries_mk (c : K → V → Bool) (es : List (K × V))
    (subs : List (Subset_Pool K V)) : (Subset_Pool.mk c es subs).entries = es := rfl

@[simp] theorem Subset_Pool.subset_pools_mk (c : K → V → Bool) (es : List (K × V))
    (subs : List (Subset_Pool K V)) : (Subset_Pool.mk c es subs).subset_pools = subs := rfl

theorem Subset_Pool.delitem_condition (s : Subset_Pool K V) (k : K) :
    (s.delitem k).condition = s.condition := by
  cases s; rfl

theorem Subset_Pool.delitem_entries (s : Subset_Pool K V) (k : K) :
    (s.delitem k).entries = eraseKey s.entries k := by
  cases s; rfl

theorem Subset_Pool.setitem_condition (s : Subset_Pool K V) (k : K) (v : V) :
    (s.setitem k v).condition = s.condition := by
  cases s with
  | mk c es subs =>
    simp only [Subset_Pool.setitem, Subset_Pool.condition_mk]
    by_cases h : c k v = true
    · rw [if_pos h]; rfl
    · rw [if_neg h]; rfl

theorem Subset_Pool.setitem_entries (s : Subset_Pool K V) (k : K) (v : V) :
    (s.setitem k v).entries =
      if s.condition k v then setEntry s.entries k v else s.entries := by
  cases s with
  | mk c es subs =>
    simp only [Subset_Pool.setitem, Subset_Pool.condition_mk, Subset_Pool.entries_mk]
    by_cases h : c k v = true
    · rw [if_pos h, if_pos h]; rfl
    · rw [if_neg h, if_neg h]; rfl

theorem Subset_Pool.setitem_of_condition_false {s : Subset_Pool K V} {k : K} {v : V}
    (h : s.condition k v = false) : s.setitem k v = s := by
  cases s with
  | mk c es subs =>
    simp only [Subset_Pool.condition_mk] at h
    simp only [Subset_Pool.setitem, h]
    rfl

theorem Subset_Pool.setitem_subset_pools_of_condition_true {s : Subset_Pool K V} {k : K} {v : V}
    (h : s.condition k v = true) :
    (s.setitem k v).subset_pools = Subset_Pool.setSubs s.subset_pools k v := by
  cases s with
  | mk c es subs =>
    simp only [Subset_Pool.condition_mk] at h
    simp only [Subset_Pool.setitem, h, if_true, Subset_Pool.subset_pools_mk]

/-- The one-view body of the `Pool.__setitem__` cascade loop. -/
def setStep (s : Subset_Pool K V) (k : K) (v : V) : Subset_Pool K V :=
  if hasKey s.entries k && !(s.condition k v) then s.delitem k
  else if s.condition k v then s.setitem k v
  else s

/-- The one-view body of the `Pool.__delitem__` cascade loop. -/
def delStep (s : Subset_Pool K V) (k : K) : Subset_Pool K V :=
  if hasKey s.entries k then s.delitem k else s

theorem setSubs_eq_map (subs : List (Subset_Pool K V)) (k : K) (v : V) :
    Subset_Pool.setSubs subs k v = subs.map (fun s => setStep s k v) := by
  induction subs with
  | nil => rfl
  | cons s rest ih => simp only [Subset_Pool.setSubs, List.map_cons, ih, setStep]

theorem delSubs_eq_map (subs : List (Subset_Pool K V)) (k : K) :
    Subset_Pool.delSubs subs k = subs.map (fun s => delStep s k) := by
  induction subs with
  | nil => rfl
  | cons s rest ih => simp only [Subset_Pool.delSubs, List.map_cons, ih, delStep]

/-- A view equals the predicate-filter of the given pool contents:
pointwise on every key, the view holds exactly the pool bindings that
satisfy its condition. -/
def viewInv (s : Subset_Pool K V) (es : List (K × V)) : Prop :=
  ∀ k, lookupKey s.entries k =
    Option.bind (lookupKey es k) (fun v => if s.condition k v then some v else none)

theorem setStep_condition (s : Subset_Pool K V) (k : K) (v : V) :
    (setStep s k v).condition = s.condition := by
  unfold setStep
  by_cases h1 : (hasKey s.entries k && !(s.condition k v)) = true
  · rw [if_pos h1, Subset_Pool.delitem_condition]
  · rw [if_neg h1]
    by_cases h2 : s.condition k v = true
    · rw [if_pos h2, Subset_Pool.setitem_condition]
    · rw [if_neg h2]

theorem delStep_condition (s : Subset_Pool K V) (k : K) :
    (delStep s k).condition = s.condition := by
  unfold delStep
  by_cases h : hasKey s.entries k = true
  · rw [if_pos h, Subset_Pool.delitem_condition]
  · rw [if_neg h]

theorem setStep_lookup_self (s : Subset_Pool K V) (k : K) (v : V) :
    lookupKey (setStep s k v).entries k =
      if s.condition k v then some v else none := by
  unfold setStep
  by_cases h2 : s.condition k v = true
  · have h1 : ¬ ((hasKey s.entries k && !(s.condition k v)) = true) := by
      rw [h2]; simp
    rw [if_neg h1, if_pos h2, Subset_Pool.setitem_entries, if_pos h2,
      lookupKey_setEntry_self, if_pos h2]
  · have h2' : s.condition k v = false := Bool.eq_false_iff.mpr h2
    by_cases h3 : hasKey s.entries k = true
    · have h1 : (hasKey s.entries k && !(s.condition k v)) = true := by
        rw [h3, h2']; rfl
      rw [if_pos h1, Subset_Pool.delitem_entries, lookupKey_eraseKey_self,
        if_neg h2]
    · have h3' : hasKey s.entries k = false := Bool.eq_false_iff.mpr h3
      have h1 : ¬ ((hasKey s.entries k && !(s.condition k v)) = true) := by
        rw [h3']; simp
      rw [if_neg h1, if_neg h2, if_neg h2]
      exact hasKey_false_lookup h3'

theorem setStep_lookup_ne (s : Subset_Pool K V) {k k' : K} (v : V) (h : k' ≠ k) :
    lookupKey (setStep s k v).entries k' = lookupKey s.entries k' := by
  unfold setStep
  by_cases h1 : (hasKey s.entries k && !(s.condition k v)) = true
  · rw [if_pos h1, Subset_Pool.delitem_entries, lookupKey_eraseKey_ne _ h]
  · rw [if_neg h1]
    by_cases h2 : s.condition k v = true
    · rw [if_pos h2, Subset_Pool.setitem_entries, if_pos h2, lookupKey_setEntry_ne _ _ h]
    · rw [if_neg h2]

theorem delStep_lookup_self (s : Subset_Pool K V) (k : K) :
    lookupKey (delStep s k).entries k = none := by
  unfold delStep
  by_cases h : hasKey s.entries k = true
  · rw [if_pos h, Subset_Pool.delitem_entries, lookupKey_eraseKey_self]
  · rw [if_neg h]
    exact hasKey_false_lookup (Bool.eq_false_iff.mpr h)

theorem delStep_lookup_ne (s : Subset_Pool K V) {k k' : K} (h : k' ≠ k) :
    lookupKey (delStep s k).entries k' = lookupKey s.entries k' := by
  unfold delStep
  by_cases hk : hasKey s.entries k = true
  · rw [if_pos hk, Subset_Pool.delitem_entries, lookupKey_eraseKey_ne _ h]
  · rw [if_neg hk]

/-- One parent-pool `set` preserves the filter invariant of a registered view. -/
theorem viewInv_setStep {s : Subset_Pool K V} {es : List (K × V)} {k : K} {v : V}
    (hinv : viewInv s es) : viewInv (setStep s k v) (setEntry es k v) := by
  intro k'
  rw [setStep_condition]
  by_cases hk : k' = k
  · subst hk
    rw [setStep_lookup_self, lookupKey_setEntry_self]
    rfl
  · rw [setStep_lookup_ne _ _ hk, lookupKey_setEntry_ne _ _ hk]
    exact hinv k'

/-- One parent-pool `delete` of a present key preserves the invariant. -/
theorem viewInv_delStep {s : Subset_Pool K V} {es : List (K × V)} {k : K}
    (hinv : viewInv s es) : viewInv (delStep s k) (eraseKey es k) := by
  intro k'
  rw [delStep_condition]
  by_cases hk : k' = k
  · subst hk
    rw [delStep_lookup_self, lookupKey_eraseKey_self]
    rfl
  · rw [delStep_lookup_ne _ hk, lookupKey_eraseKey_ne _ hk]
    exact hinv k'

/-- A failing `delete` (key absent from the pool, `KeyError` about to be
raised) still leaves the invariant intact: the view held no such key. -/
theorem viewInv_delStep_missing {s : Subset_Pool K V} {es : List (K × V)} {k : K}
    (hmiss : hasKey es k = false) (hinv : viewInv s es) :
    viewInv (delStep s k) es := by
  intro k'
  rw [delStep_condition]
  by_cases hk : k' = k
  · subst hk
    rw [delStep_lookup_self, hasKey_false_lookup hmiss]
    rfl
  · rw [delStep_lookup_ne _ hk]
    exact hinv k'

/-! Sequences of mutating operations on a `Pool`. -/

/-- One mutating operation on a `Pool`: `pool[k] = v` or `del pool[k]`. -/
inductive PoolOp (K V : Type) where
  | set (k : K) (v : V)
  | del (k : K)

/-- Apply one operation to the pool (for `del`, the resulting object state,
whether or not `KeyError` is raised). -/
def Pool.applyOp (p : Pool K V) : PoolOp K V → Pool K V
  | .set k v => p.setitem k v
  | .del k => (p.delitem k).1

def Pool.applyOps (p : Pool K V) (ops : List (PoolOp K V)) : Pool K V :=
  ops.foldl Pool.applyOp p

/-- How one pool operation transforms a single registered view. -/
def viewStep (s : Subset_Pool K V) : PoolOp K V → Subset_Pool K V
  | .set k v => setStep s k v
  | .del k => delStep s k

/-- How one pool operation transforms the pool's own dict entries. -/
def entriesStep (es : List (K × V)) : PoolOp K V → List (K × V)
  | .set k v => setEntry es k v
  | .del k => if hasKey es k then eraseKey es k else es

theorem applyOp_subset_pools (p : Pool K V) (op : PoolOp K V) :
    (p.applyOp op).subset_pools = p.subset_pools.map (fun s => viewStep s op) := by
  cases op with
  | set k v =>
    show Subset_Pool.setSubs p.subset_pools k v = _
    rw [setSubs_eq_map]
    rfl
  | del k =>
    show (p.delitem k).1.subset_pools = _
    unfold Pool.delitem
    by_cases h : hasKey p.entries k = true
    · rw [if_pos h]
      rw [delSubs_eq_map]
      rfl
    · rw [if_neg h]
      rw [delSubs_eq_map]
      rfl

theorem applyOp_entries (p : Pool K V) (op : PoolOp K V) :
    (p.applyOp op).entries = entriesStep p.entries op := by
  cases op with
  | set k v => rfl
  | del k =>
    show (p.delitem k).1.entries = _
    simp only [Pool.delitem, entriesStep]
    by_cases h : hasKey p.entries k = true
    · rw [if_pos h, if_pos h]
    · rw [if_neg h, if_neg h]

/-- One pool operation keeps every registered view equal to the filter. -/
theorem viewInv_viewStep {s : Subset_Pool K V} {es : List (K × V)}
    (op : PoolOp K V) (hinv : viewInv s es) :
    viewInv (viewStep s op) (entriesStep es op) := by
  cases op with
  | set k v => exact viewInv_setStep hinv
  | del k =>
    show viewInv (delStep s k) _
    simp only [entriesStep]
    by_cases h : hasKey es k = true
    · rw [if_pos h]
      exact viewInv_delStep hinv
    · rw [if_neg h]
      exact viewInv_delStep_missing (Bool.eq_false_iff.mpr h) hinv

theorem getLast?_map_option {α β : Type} (f : α → β) (l : List α) :
    (l.map f).getLast? = (l.getLast?).map f := by
  induction l with
  | nil => rfl
  | cons a t ih =>
    cases t with
    | nil => rfl
    | cons b t2 =>
      rw [List.map_cons, List.getLast?_cons_cons, List.map_cons,
        List.getLast?_cons_cons]
      exact ih

/-- Applying any sequence of operations preserves the filter invariant of the
most recently registered view. -/
theorem applyOps_last_viewInv (ops : List (PoolOp K V)) :
    ∀ (q : Pool K V),
      (∀ s, q.subset_pools.getLast? = some s → viewInv s q.entries) →
      ∀ s, (q.applyOps ops).subset_pools.getLast? = some s →
        viewInv s (q.applyOps ops).entries := by
  induction ops with
  | nil => exact fun q hq => hq
  | cons op rest ih =>
    intro q hq
    show ∀ s, ((q.applyOp op).applyOps rest).subset_pools.getLast? = some s → _
    refine ih (q.applyOp op) ?_
    intro s hs
    rw [applyOp_subset_pools, getLast?_map_option] at hs
    rw [applyOp_entries]
    cases hlast : q.subset_pools.getLast? with
    | none => rw [hlast] at hs; exact Option.noConfusion hs
    | some s0 =>
      rw [hlast] at hs
      have hs0 : s = viewStep s0 op := (Option.some.inj hs).symm
      rw [hs0]
      exact viewInv_viewStep op (hq s0 hlast)

/-! Seeding a freshly created view (`Pool.add_subset_pool`). -/

theorem not_mem_keys_lookup {rest : List (K × V)} {a : K}
    (h : ¬ a ∈ rest.map Prod.fst) : lookupKey rest a = none := by
  induction rest with
  | nil => rfl
  | cons q t ih =>
    rw [List.map_cons, List.mem_cons, not_or] at h
    have hq : ¬ (q.1 = a) := fun hc => h.1 hc.symm
    simp only [lookupKey, if_neg hq]
    exact ih h.2

theorem seedSub_condition (items : List (K × V)) :
    ∀ s : Subset_Pool K V, (seedSub s items).condition = s.condition := by
  induction items with
  | nil => exact fun s => rfl
  | cons kv rest ih =>
    intro s
    show (seedSub (s.setitem kv.1 kv.2) rest).condition = _
    rw [ih, Subset_Pool.setitem_condition]

/-- What the seeding loop computes: keys of processed items satisfying the
condition get the item's value; other keys keep the accumulator's binding. -/
theorem seedSub_lookup (items : List (K × V)) :
    nodupKeys items → ∀ (s : Subset_Pool K V) (k : K),
      lookupKey (seedSub s items).entries k =
        match lookupKey items k with
        | some v => if s.condition k v then some v else lookupKey s.entries k
        | none => lookupKey s.entries k := by
  induction items with
  | nil => exact fun _ s k => rfl
  | cons kv rest ih =>
    intro hnd s k
    have hnd' : nodupKeys rest := by
      unfold nodupKeys at hnd ⊢
      rw [List.map_cons] at hnd
      exact hnd.of_cons
    have hknotin : ¬ kv.1 ∈ rest.map Prod.fst := by
      unfold nodupKeys at hnd
      rw [List.map_cons, List.nodup_cons] at hnd
      exact hnd.1
    show lookupKey (seedSub (s.setitem kv.1 kv.2) rest).entries k = _
    rw [ih hnd' (s.setitem kv.1 kv.2) k]
    by_cases hk : k = kv.1
    · subst hk
      have hl : lookupKey (kv :: rest) kv.1 = some kv.2 := by
        show (if kv.1 = kv.1 then some kv.2 else lookupKey rest kv.1) = some kv.2
        rw [if_pos rfl]
      rw [hl, not_mem_keys_lookup hknotin]
      show lookupKey (s.setitem kv.1 kv.2).entries kv.1 =
        if s.condition kv.1 kv.2 then some kv.2 else lookupKey s.entries kv.1
      rw [Subset_Pool.setitem_entries]
      by_cases hc : s.condition kv.1 kv.2 = true
      · rw [if_pos hc, if_pos hc, lookupKey_setEntry_self]
      · rw [if_neg hc, if_neg hc]
    · have hk1 : ¬ (kv.1 = k) := fun hc => hk hc.symm
      have hl : lookupKey (kv :: rest) k = lookupKey rest k := by
        show (if kv.1 = k then some kv.2 else lookupKey rest k) = lookupKey rest k
        rw [if_neg hk1]
      rw [hl]
      have hent : lookupKey (s.setitem kv.1 kv.2).entries k = lookupKey s.entries k := by
        rw [Subset_Pool.setitem_entries]
        by_cases hc : s.condition kv.1 kv.2 = true
        · rw [if_pos hc, lookupKey_setEntry_ne _ _ hk]
        · rw [if_neg hc]
      cases hr : lookupKey rest k with
      | none =>
        show lookupKey (s.setitem kv.1 kv.2).entries k = lookupKey s.entries k
        exact hent
      | some v =>
        show (if (s.setitem kv.1 kv.2).condition k v then some v
              else lookupKey (s.setitem kv.1 kv.2).entries k) =
             if s.condition k v then some v else lookupKey s.entries k
        rw [Subset_Pool.setitem_condition, hent]

/-- A freshly created `Subset_Pool(condition)` seeded by `add_subset_pool`
equals the filter of the pool's current entries. -/
theorem seedSub_fresh_viewInv (c : K → V → Bool) {items : List (K × V)}
    (hnd : nodupKeys items) :
    viewInv (seedSub (Subset_Pool.mk c [] []) items) items := by
  intro k
  rw [seedSub_lookup items hnd (Subset_Pool.mk c [] []) k, seedSub_condition]
  cases h : lookupKey items k with
  | none => rfl
  | some v =>
    show (if c k v then some v else lookupKey ([] : List (K × V)) k) = _
    by_cases hc : c k v = true
    · rw [if_pos hc]
      show _ = (if (Subset_Pool.mk c [] [] : Subset_Pool K V).condition k v then some v else none)
      rw [Subset_Pool.condition_mk, if_pos hc]
    · rw [if_neg hc]
      show _ = (if (Subset_Pool.mk c [] [] : Subset_Pool K V).condition k v then some v else none)
      rw [Subset_Pool.condition_mk, if_neg hc]
      rfl

theorem delStep_hasKey_self (s : Subset_Pool K V) (k : K) :
    hasKey (delStep s k).entries k = false := by
  unfold delStep
  by_cases h : hasKey s.entries k = true
  · rw [if_pos h, Subset_Pool.delitem_entries]
    exact hasKey_eraseKey_self s.entries k
  · rw [if_neg h]
    exact Bool.eq_false_iff.mpr h

/-- Claim C1: for every Pool, every predicate and every sequence of
`set`/`delete` operations performed after a fresh SubsetPool is registered
via `add_subset_pool`, the registered view equals
`{k : v in pool | predicate(k, v)}` — immediately after registration
(`ops = []`) and after every subsequent operation (every prefix of a
sequence is itself a sequence, so quantifying over all `ops` covers each
intermediate state). -/
theorem claim1_view_consistency (p : Pool K V) (c : K → V → Bool)
    (ops : List (PoolOp K V)) (hnd : nodupKeys p.entries) :
    ∀ s, ((p.add_subset_pool (Subset_Pool.mk c [] [])).applyOps
            ops).subset_pools.getLast? = some s →
      viewInv s (((p.add_subset_pool (Subset_Pool.mk c [] [])).applyOps
            ops).entries) := by
  refine applyOps_last_viewInv ops _ ?_
  intro s hs
  show viewInv s p.entries
  have hsubs : (p.add_subset_pool (Subset_Pool.mk c [] [])).subset_pools
      = p.subset_pools ++ [seedSub (Subset_Pool.mk c [] []) p.entries] := rfl
  rw [hsubs, List.getLast?_concat] at hs
  rw [← Option.some.inj hs]
  exact seedSub_fresh_viewInv c hnd

def w1cond : Nat → Nat → Bool := fun _ v => decide (5 ≤ v)

def w1pool : Pool Nat Nat := ⟨[(1, 10), (2, 3)], []⟩

def w1ops : List (PoolOp Nat Nat) := [.set 3 7, .del 1]

def w1final : Pool Nat Nat :=
  (w1pool.add_subset_pool (Subset_Pool.mk w1cond [] [])).applyOps w1ops

theorem claim1_view_consistency_witness :
    nodupKeys w1pool.entries ∧
    viewInv (Subset_Pool.mk w1cond [(3, 7)] []) w1final.entries :=
  ⟨by decide,
   claim1_view_consistency w1pool w1cond w1ops (by decide)
     (Subset_Pool.mk w1cond [(3, 7)] []) rfl⟩

/-- Claim C5: a direct `view[k] = v` on a Subset_Pool whose condition
rejects `(k, v)` is a silent no-op — the whole object (entries, nested
views) is unchanged and no error is raised — while a direct
`del view[k]` of a present key always removes it, whatever the
condition says. -/
theorem claim5_write_gate (s : Subset_Pool K V) (k : K) (v : V) :
    (s.condition k v = false → s.setitem k v = s) ∧
    (hasKey s.entries k = true → hasKey (s.delitem k).entries k = false) := by
  constructor
  · exact fun h => Subset_Pool.setitem_of_condition_false h
  · intro _
    rw [Subset_Pool.delitem_entries]
    exact hasKey_eraseKey_self s.entries k

def w5sub : Subset_Pool Nat Nat :=
  .mk (fun _ v => decide (v % 2 = 0)) [(1, 4)] []

theorem claim5_write_gate_witness :
    (w5sub.condition 1 3 = false ∧ hasKey w5sub.entries 1 = true) ∧
    (w5sub.setitem 1 3 = w5sub ∧ hasKey (w5sub.delitem 1).entries 1 = false) :=
  ⟨⟨rfl, rfl⟩,
   ⟨(claim5_write_gate w5sub 1 3).1 rfl, (claim5_write_gate w5sub 1 3).2 rfl⟩⟩

/-- Claim C9: `del pool[k]` for a key absent from the Pool raises
`KeyError` (flag `false`), but only after the cascade has already removed
`k` from every registered view that contained it: the pool's own entries
are untouched, yet every registered view ends up without `k`. -/
theorem claim9_delete_missing_key (p : Pool K V) (k : K)
    (h : hasKey p.entries k = false) :
    (p.delitem k).2 = false ∧
    (p.delitem k).1.entries = p.entries ∧
    ∀ s ∈ (p.delitem k).1.subset_pools, hasKey s.entries k = false := by
  have hne : ¬ (hasKey p.entries k = true) := by
    rw [h]; exact Bool.false_ne_true
  refine ⟨?_, ?_, ?_⟩
  · unfold Pool.delitem
    rw [if_neg hne]
  · unfold Pool.delitem
    rw [if_neg hne]
  · intro s hs
    have hsubs : (p.delitem k).1.subset_pools
        = p.subset_pools.map (fun s0 => delStep s0 k) := by
      unfold Pool.delitem
      rw [if_neg hne, delSubs_eq_map]
    rw [hsubs] at hs
    obtain ⟨s0, _, heq⟩ := List.mem_map.mp hs
    rw [← heq]
    exact delStep_hasKey_self s0 k

def w9pool : Pool Nat Nat :=
  ⟨[(2, 5)], [.mk (fun _ _ => true) [(1, 7)] []]⟩

theorem claim9_delete_missing_key_witness :
    hasKey w9pool.entries 1 = false ∧
    ((w9pool.delitem 1).2 = false ∧
     (w9pool.delitem 1).1.entries = w9pool.entries ∧
     ∀ s ∈ (w9pool.delitem 1).1.subset_pools, hasKey s.entries 1 = false) :=
  ⟨rfl, claim9_delete_missing_key w9pool 1 rfl⟩

/-- A direct write `view[k] = v` on the `i`-th registered view of a parent
Pool.  In Python the parent's `subset_pools` list aliases the view object,
so the in-place mutation is visible through the parent, but the parent's
own dict is untouched: `Subset_Pool.__setitem__` holds no reference to the
parent at all. -/
def Pool.directViewSet (p : Pool K V) (i : Fin p.subset_pools.length)
    (k : K) (v : V) : Pool K V :=
  ⟨p.entries, p.subset_pools.set i ((p.subset_pools.get i).setitem k v)⟩

/-- Claim C10: a direct set on a registered Subset_Pool never modifies the
parent Pool's contents; with the condition true and the key absent from the
parent, the view gains the entry (cascading only to the view's own nested
subsets) while the parent still lacks the key. -/
theorem claim10_direct_view_set (p : Pool K V) (i : Fin p.subset_pools.length)
    (k : K) (v : V) (hc : (p.subset_pools.get i).condition k v = true)
    (hk : hasKey p.entries k = false) :
    (p.directViewSet i k v).entries = p.entries ∧
    lookupKey ((p.subset_pools.get i).setitem k v).entries k = some v ∧
    ((p.subset_pools.get i).setitem k v).subset_pools
      = Subset_Pool.setSubs (p.subset_pools.get i).subset_pools k v ∧
    hasKey (p.directViewSet i k v).entries k = false := by
  refine ⟨rfl, ?_, Subset_Pool.setitem_subset_pools_of_condition_true hc, hk⟩
  rw [Subset_Pool.setitem_entries, if_pos hc, lookupKey_setEntry_self]

def w10pool : Pool Nat Nat :=
  ⟨[(2, 5)], [.mk (fun _ _ => true) [] []]⟩

theorem claim10_direct_view_set_witness :
    ((w10pool.subset_pools.get ⟨0, by decide⟩).condition 1 7 = true ∧
     hasKey w10pool.entries 1 = false) ∧
    ((w10pool.directViewSet ⟨0, by decide⟩ 1 7).entries = w10pool.entries ∧
     lookupKey ((w10pool.subset_pools.get ⟨0, by decide⟩).setitem 1 7).entries 1 = some 7 ∧
     ((w10pool.subset_pools.get ⟨0, by decide⟩).setitem 1 7).subset_pools
       = Subset_Pool.setSubs (w10pool.subset_pools.get ⟨0, by decide⟩).subset_pools 1 7 ∧
     hasKey ((w10pool.directViewSet ⟨0, by decide⟩ 1 7)).entries 1 = false) :=
  ⟨⟨rfl, rfl⟩, claim10_direct_view_set w10pool ⟨0, by decide⟩ 1 7 rfl rfl⟩

theorem lookupKey_none_hasKey {es : List (K × V)} {k : K}
    (h : lookupKey es k = none) : hasKey es k = false := by
  induction es with
  | nil => rfl
  | cons p rest ih =>
    by_cases hp : p.1 = k
    · rw [lookupKey, if_pos hp] at h
      exact Option.noConfusion h
    · rw [lookupKey, if_neg hp] at h
      simp only [hasKey, decide_eq_false hp, Bool.false_or]
      exact ih h

theorem lookup_some_mem {es : List (K × V)} {k : K} {v : V}
    (h : lookupKey es k = some v) : (k, v) ∈ es := by
  induction es with
  | nil => exact Option.noConfusion h
  | cons p rest ih =>
    by_cases hp : p.1 = k
    · rw [lookupKey, if_pos hp] at h
      have hv : p.2 = v := Option.some.inj h
      have : p = (k, v) := by
        cases p
        cases hp
        cases hv
        rfl
      rw [← this]
      exact List.mem_cons_self p rest
    · rw [lookupKey, if_neg hp] at h
      exact List.mem_cons_of_mem p (ih h)

theorem updStep_condition (s : Subset_Pool K V) (kv : K × V) :
    (updStep s kv).condition = s.condition := by
  unfold updStep
  by_cases h1 : (!(s.condition kv.1 kv.2) && hasKey s.entries kv.1) = true
  · rw [if_pos h1, Subset_Pool.delitem_condition]
  · rw [if_neg h1]
    by_cases h2 : s.condition kv.1 kv.2 = true
    · rw [if_pos h2, Subset_Pool.setitem_condition]
    · rw [if_neg h2]

theorem updStep_lookup_self (s : Subset_Pool K V) (kv : K × V) :
    lookupKey (updStep s kv).entries kv.1 =
      if s.condition kv.1 kv.2 then some kv.2 else none := by
  unfold updStep
  by_cases h2 : s.condition kv.1 kv.2 = true
  · have h1 : ¬ ((!(s.condition kv.1 kv.2) && hasKey s.entries kv.1) = true) := by
      rw [h2]; simp
    rw [if_neg h1, if_pos h2, Subset_Pool.setitem_entries, if_pos h2,
      lookupKey_setEntry_self, if_pos h2]
  · have h2' : s.condition kv.1 kv.2 = false := Bool.eq_false_iff.mpr h2
    by_cases h3 : hasKey s.entries kv.1 = true
    · have h1 : (!(s.condition kv.1 kv.2) && hasKey s.entries kv.1) = true := by
        rw [h2', h3]; rfl
      rw [if_pos h1, Subset_Pool.delitem_entries, lookupKey_eraseKey_self,
        if_neg h2]
    · have h3' : hasKey s.entries kv.1 = false := Bool.eq_false_iff.mpr h3
      have h1 : ¬ ((!(s.condition kv.1 kv.2) && hasKey s.entries kv.1) = true) := by
        rw [h3']; simp
      rw [if_neg h1, if_neg h2, if_neg h2]
      exact hasKey_false_lookup h3'

theorem updStep_lookup_ne (s : Subset_Pool K V) (kv : K × V) {k' : K}
    (h : k' ≠ kv.1) :
    lookupKey (updStep s kv).entries k' = lookupKey s.entries k' := by
  unfold updStep
  by_cases h1 : (!(s.condition kv.1 kv.2) && hasKey s.entries kv.1) = true
  · rw [if_pos h1, Subset_Pool.delitem_entries, lookupKey_eraseKey_ne _ h]
  · rw [if_neg h1]
    by_cases h2 : s.condition kv.1 kv.2 = true
    · rw [if_pos h2, Subset_Pool.setitem_entries, if_pos h2,
        lookupKey_setEntry_ne _ _ h]
    · rw [if_neg h2]

/-- What the `update_subpools` loop computes for one view: every key of a
processed item is re-filtered (kept with the pool's value iff the condition
holds), while keys not occurring among the items keep the view's binding. -/
theorem updateSub_lookup (items : List (K × V)) :
    nodupKeys items → ∀ (s : Subset_Pool K V) (k : K),
      lookupKey (updateSub s items).entries k =
        match lookupKey items k with
        | some v => if s.condition k v then some v else none
        | none => lookupKey s.entries k := by
  induction items with
  | nil => exact fun _ s k => rfl
  | cons kv rest ih =>
    intro hnd s k
    have hnd' : nodupKeys rest := by
      unfold nodupKeys at hnd ⊢
      rw [List.map_cons] at hnd
      exact hnd.of_cons
    have hknotin : ¬ kv.1 ∈ rest.map Prod.fst := by
      unfold nodupKeys at hnd
      rw [List.map_cons, List.nodup_cons] at hnd
      exact hnd.1
    show lookupKey (updateSub (updStep s kv) rest).entries k = _
    rw [ih hnd' (updStep s kv) k]
    by_cases hk : k = kv.1
    · subst hk
      have hl : lookupKey (kv :: rest) kv.1 = some kv.2 := by
        show (if kv.1 = kv.1 then some kv.2 else lookupKey rest kv.1) = some kv.2
        rw [if_pos rfl]
      rw [hl, not_mem_keys_lookup hknotin]
      show lookupKey (updStep s kv).entries kv.1 =
        if s.condition kv.1 kv.2 then some kv.2 else none
      exact updStep_lookup_self s kv
    · have hk1 : ¬ (kv.1 = k) := fun hc => hk hc.symm
      have hl : lookupKey (kv :: rest) k = lookupKey rest k := by
        show (if kv.1 = k then some kv.2 else lookupKey rest k) = lookupKey rest k
        rw [if_neg hk1]
      rw [hl]
      cases hr : lookupKey rest k with
      | none =>
        show lookupKey (updStep s kv).entries k = lookupKey s.entries k
        exact updStep_lookup_ne s kv hk
      | some v =>
        show (if (updStep s kv).condition k v then some v else none) =
          if s.condition k v then some v else none
        rw [updStep_condition]

theorem updateSub_condition (items : List (K × V)) :
    ∀ s : Subset_Pool K V, (updateSub s items).condition = s.condition := by
  induction items with
  | nil => exact fun s => rfl
  | cons kv rest ih =>
    intro s
    show (updateSub (updStep s kv) rest).condition = _
    rw [ih, updStep_condition]

def c4sub : Subset_Pool Nat Nat := .mk (fun _ _ => true) [(1, 10)] []

def c4pool : Pool Nat Nat := ⟨[], [c4sub]⟩

/-- Claim C4 counterexample: a stale entry present only in the view (its key
was removed from the pool out-of-band) survives both `update_subpools` and
`reinitialize_subsets` untouched, so the resynced view does not equal
`{k : v in pool | predicate(k, v)}` (which is empty here): both loops
iterate over the pool's items only and never visit view-only keys. -/
theorem claim4_resync_counterexample :
    c4pool.update_subpools.subset_pools = [c4sub] ∧
    c4pool.reinitialize_subsets.subset_pools = [c4sub] ∧
    ¬ viewInv c4sub c4pool.update_subpools.entries ∧
    ¬ viewInv c4sub c4pool.reinitialize_subsets.entries := by
  refine ⟨rfl, rfl, fun h => absurd (h 1) (by decide), fun h => absurd (h 1) (by decide)⟩

/-- Claim C4 amended: `update_subpools` keeps the pool's entries unchanged
and re-filters every registered view on each key currently in the pool;
keys absent from the pool keep their stale view binding untouched, and when
every key of a view is present in the pool the updated view equals
`{k : v in pool | predicate(k, v)}`. -/
theorem claim4_update_subpools_resync (p : Pool K V) (hnd : nodupKeys p.entries) :
    p.update_subpools.entries = p.entries ∧
    p.update_subpools.subset_pools
      = p.subset_pools.map (fun s => updateSub s p.entries) ∧
    ∀ s ∈ p.subset_pools,
      (∀ k, lookupKey p.entries k = none →
        lookupKey (updateSub s p.entries).entries k = lookupKey s.entries k) ∧
      ((∀ e ∈ s.entries, hasKey p.entries e.1 = true) →
        viewInv (updateSub s p.entries) p.entries) := by
  refine ⟨rfl, rfl, ?_⟩
  intro s _
  constructor
  · intro k hnone
    rw [updateSub_lookup p.entries hnd s k, hnone]
  · intro hkeys k
    rw [updateSub_lookup p.entries hnd s k, updateSub_condition]
    cases hp : lookupKey p.entries k with
    | some v => rfl
    | none =>
      show lookupKey s.entries k = none
      cases hs : lookupKey s.entries k with
      | none => rfl
      | some w =>
        have hmem : (k, w) ∈ s.entries := lookup_some_mem hs
        have hk : hasKey p.entries k = true := hkeys (k, w) hmem
        rw [lookupKey_none_hasKey hp] at hk
        exact Bool.noConfusion hk

def w4pool : Pool Nat Nat :=
  ⟨[(1, 4), (2, 7)], [.mk (fun _ v => decide (v ≤ 5)) [(1, 99), (2, 7)] []]⟩

theorem claim4_update_subpools_resync_witness :
    nodupKeys w4pool.entries ∧
    (w4pool.update_subpools.entries = w4pool.entries ∧
     w4pool.update_subpools.subset_pools
       = w4pool.subset_pools.map (fun s => updateSub s w4pool.entries) ∧
     ∀ s ∈ w4pool.subset_pools,
       (∀ k, lookupKey w4pool.entries k = none →
         lookupKey (updateSub s w4pool.entries).entries k = lookupKey s.entries k) ∧
       ((∀ e ∈ s.entries, hasKey w4pool.entries e.1 = true) →
         viewInv (updateSub s w4pool.entries) w4pool.entries)) :=
  ⟨by decide, claim4_update_subpools_resync w4pool (by decide)⟩

/-!
`src/DGA/Server.py` orchestration (`src/SLURM/Server.py` carries the same
`server_callback` logic with the budget hard-coded to 20 and, in its
`run_client` branch, no log write).

`server_callback` pops the iteration counter, increments it, exits when it
has reached the budget, and otherwise enters a `while True` loop: acquire
the pool lock (timeout 100), re-load the algorithm, call `fetch_gene`,
release the lock, and on failure sleep 1 second and retry; on success it
dispatches a new worker bound to the fetched gene and the new counter.
The fetch outcomes of the successive attempts are passed in as a list
(`none` = failure, `some g` = success returning gene `g`).
-/

/-- Observable lock/sleep events of the retry loop. -/
inductive FetchEv where
  | lock_acquire (timeout : Nat)
  | lock_release
  | sleep_delay (seconds : Nat)
deriving DecidableEq

/-- The `while True` fetch-retry loop of `server_callback`: per attempt,
acquire the lock (timeout 100), fetch, release; break on success, else
sleep 1 and loop.  Returns the event trace over the given attempts and the
fetched gene, `none` while no attempt has succeeded yet (loop still
running). -/
def fetch_loop {G : Type} : List (Option G) → List FetchEv × Option G
  | [] => ([], none)
  | none :: rest =>
    let r := fetch_loop rest
    (FetchEv.lock_acquire 100 :: FetchEv.lock_release :: FetchEv.sleep_delay 1 :: r.1, r.2)
  | some g :: _ => ([FetchEv.lock_acquire 100, FetchEv.lock_release], some g)

/-- Result of one `server_callback` step. -/
inductive SCResult (G : Type) where
  | done
  | dispatch (gene : G) (count : Nat)
  | looping
deriving DecidableEq

/-- `Server.server_callback`: increment the popped counter, `sys.exit()` when
it has reached the budget (before any fetch), otherwise run the fetch-retry
loop and dispatch a new worker bound to the fetched gene and new counter. -/
def server_callback {G : Type} (iterations count : Nat)
    (attempts : List (Option G)) : SCResult G :=
  if count + 1 ≥ iterations then SCResult.done
  else
    match (fetch_loop attempts).2 with
    | some g => SCResult.dispatch g (count + 1)
    | none => SCResult.looping

/-- Workers dispatched by one handoff chain, starting from a worker already
dispatched with iteration counter `count` (that worker included): each
worker's callback increments the counter and either exits or dispatches the
next worker.  Assumes every retry loop eventually fetches successfully, as
the claim's scenario does. -/
def chainFrom (iterations count : Nat) : Nat :=
  if h : iterations ≤ count + 1 then 1
  else 1 + chainFrom iterations (count + 1)
termination_by iterations - count
decreasing_by omega

/-- `Server.init` dispatches `num_parallel_processes` workers, each carrying
counter 0; every chain then proceeds independently. -/
def total_dispatches (iterations num_parallel : Nat) : Nat :=
  num_parallel * chainFrom iterations 0

theorem chainFrom_eq (d : Nat) : ∀ c, chainFrom (c + d + 1) c = d + 1 := by
  induction d with
  | zero =>
    intro c
    unfold chainFrom
    rw [dif_pos (by omega)]
  | succ d ih =>
    intro c
    unfold chainFrom
    rw [dif_neg (by omega)]
    have harg := ih (c + 1)
    rw [(by omega : c + 1 + d + 1 = c + (d + 1) + 1)] at harg
    rw [harg]
    omega

/-- Claim C2: once the incremented counter has reached the budget the
callback exits (`DONE`) without dispatching — whatever the fetch outcomes —
and with iteration budget `B ≥ 1` and one worker slot the chain dispatches
exactly `B` workers in total, so no `(B+1)`-th dispatch occurs. -/
theorem claim2_termination (B : Nat) (hB : 1 ≤ B) :
    total_dispatches B 1 = B ∧
    ∀ (c : Nat) (attempts : List (Option Nat)), B ≤ c + 1 →
      server_callback B c attempts = SCResult.done := by
  constructor
  · unfold total_dispatches
    have h2 := chainFrom_eq (B - 1) 0
    rw [(by omega : 0 + (B - 1) + 1 = B)] at h2
    rw [h2, (by omega : B - 1 + 1 = B), one_mul]
  · intro c attempts h
    unfold server_callback
    rw [if_pos h]

theorem claim2_termination_witness :
    1 ≤ 20 ∧
    (total_dispatches 20 1 = 20 ∧
     ∀ (c : Nat) (attempts : List (Option Nat)), 20 ≤ c + 1 →
       server_callback 20 c attempts = SCResult.done) :=
  ⟨by decide, claim2_termination 20 (by decide)⟩

/-- Claim C6: in `SELECT_NEXT`, when the retry loop's fetch succeeds with
gene `g`, the step either exits to `DONE` with no dispatch (exactly when the
incremented counter has reached the budget) or dispatches the next worker
bound to `g` with the counter incremented by one. -/
theorem claim6_select_next {G : Type} (iterations count : Nat)
    (attempts : List (Option G)) (g : G)
    (hs : (fetch_loop attempts).2 = some g) :
    server_callback iterations count attempts =
      if count + 1 ≥ iterations then SCResult.done
      else SCResult.dispatch g (count + 1) := by
  unfold server_callback
  by_cases h : count + 1 ≥ iterations
  · rw [if_pos h, if_pos h]
  · rw [if_neg h, if_neg h, hs]

theorem claim6_select_next_witness :
    ((fetch_loop [none, some 7]).2 = some 7) ∧
    server_callback 5 1 [none, some 7] =
      (if 1 + 1 ≥ 5 then SCResult.done else SCResult.dispatch 7 (1 + 1)) :=
  ⟨rfl, claim6_select_next 5 1 [none, some 7] 7 rfl⟩

/-- Claim C7: a failed fetch is non-fatal — the lock is released, the
process sleeps the fixed 1-second delay, and the fetch is retried; for any
number `n` of consecutive failures followed by a success the loop performs
exactly `n` acquire/release/sleep rounds and then succeeds (no retry
counter bounds `n`), while with only failures so far it is still looping. -/
theorem claim7_retry_until_success {G : Type} (n : Nat) (g : G)
    (rest : List (Option G)) :
    fetch_loop (List.replicate n (none : Option G) ++ some g :: rest)
      = ((List.replicate n
            [FetchEv.lock_acquire 100, FetchEv.lock_release, FetchEv.sleep_delay 1]).flatten
          ++ [FetchEv.lock_acquire 100, FetchEv.lock_release], some g) ∧
    fetch_loop (List.replicate n (none : Option G))
      = ((List.replicate n
            [FetchEv.lock_acquire 100, FetchEv.lock_release, FetchEv.sleep_delay 1]).flatten,
         none) := by
  induction n with
  | zero => exact ⟨rfl, rfl⟩
  | succ n ih =>
    constructor
    · show (FetchEv.lock_acquire 100 :: FetchEv.lock_release :: FetchEv.sleep_delay 1 ::
          (fetch_loop (List.replicate n (none : Option G) ++ some g :: rest)).1,
          (fetch_loop (List.replicate n (none : Option G) ++ some g :: rest)).2) = _
      rw [ih.1]
      rfl
    · show (FetchEv.lock_acquire 100 :: FetchEv.lock_release :: FetchEv.sleep_delay 1 ::
          (fetch_loop (List.replicate n (none : Option G))).1,
          (fetch_loop (List.replicate n (none : Option G))).2) = _
      rw [ih.2]
      rfl

/-!
`RECORD_RESULT`: `Server.run_client` in `src/DGA/Server.py`, and the
`run_client` branch of `src/SLURM/Server.py`.  After the model evaluation
returns the fitness, the record is updated (`fitness` set, `status` set to
`'tested'`) and written back under the pool lock; the DGA server also
appends a structured log line inside the lock, the SLURM branch does not.
Afterwards both spawn the `server_callback` continuation process.
-/

/-- A candidate record as written by `create_gene` and updated by
`run_client`: `{'gene': ..., 'fitness': ..., 'status': ...}`. -/
structure GeneData (Fit : Type) where
  gene : List Nat
  fitness : Option Fit
  status : String
deriving DecidableEq

/-- Observable events of the `RECORD_RESULT` step. -/
inductive RCEvent (Fit : Type) where
  | lock_acquire (timeout : Nat)
  | write_gene (gene_name : String) (data : GeneData Fit)
  | write_log (gene_name : String) (data : GeneData Fit)
  | lock_release
  | spawn_callback
deriving DecidableEq

def RCEvent.isLog {Fit : Type} : RCEvent Fit → Bool
  | .write_log _ _ => true
  | _ => false

/-- DGA `Server.run_client` after the client evaluation returned `fitness`:
set `gene_data['fitness']` and `gene_data['status'] = 'tested'`, then under
`portalocker.Lock(..., timeout=100)` write the gene and append the log
line, and after releasing the lock spawn the `server_callback`
continuation. -/
def run_client {Fit : Type} (gene_name : String) (gd : GeneData Fit)
    (fitness : Fit) : List (RCEvent Fit) × GeneData Fit :=
  let gd2 : GeneData Fit := { gd with fitness := some fitness, status := "tested" }
  ([RCEvent.lock_acquire 100, RCEvent.write_gene gene_name gd2,
    RCEvent.write_log gene_name gd2, RCEvent.lock_release,
    RCEvent.spawn_callback], gd2)

/-- The `run_client` branch of `src/SLURM/Server.py`: identical record
update and locked write, but no log append. -/
def slurm_run_client {Fit : Type} (gene_name : String) (gd : GeneData Fit)
    (fitness : Fit) : List (RCEvent Fit) × GeneData Fit :=
  let gd2 : GeneData Fit := { gd with fitness := some fitness, status := "tested" }
  ([RCEvent.lock_acquire 100, RCEvent.write_gene gene_name gd2,
    RCEvent.lock_release, RCEvent.spawn_callback], gd2)

/-- Claim C8 counterexample: the `run_client` branch of `SLURM/Server.py`
records a result without appending any structured log entry — its whole
event trace is lock/write/release/spawn with no log event — so the claim's
"appends a structured log entry" does not hold of every `run_client`. -/
theorem claim8_record_result_counterexample :
    (slurm_run_client "g0" (⟨[1, 2], none, "being tested"⟩ : GeneData Int) 3).1
      = [RCEvent.lock_acquire 100,
         RCEvent.write_gene "g0" ⟨[1, 2], some 3, "tested"⟩,
         RCEvent.lock_release, RCEvent.spawn_callback] ∧
    ((slurm_run_client "g0" (⟨[1, 2], none, "being tested"⟩ : GeneData Int) 3).1.all
      (fun e => !(RCEvent.isLog e))) = true :=
  ⟨rfl, rfl⟩

/-- Claim C8 amended: for every worker completing with fitness `f`, the DGA
`Server.run_client` acquires the lock with timeout 100, writes the record
back with `status = 'tested'` and `fitness = f` (payload unchanged),
appends the structured log entry, releases the lock and only then spawns
the `SELECT_NEXT` continuation; the SLURM `run_client` branch performs the
same lock/write/release/spawn sequence on the same record but appends no
log entry. -/
theorem claim8_record_result {Fit : Type} (gene_name : String)
    (gd : GeneData Fit) (f : Fit) :
    ((run_client gene_name gd f).2.status = "tested" ∧
     (run_client gene_name gd f).2.fitness = some f ∧
     (run_client gene_name gd f).2.gene = gd.gene) ∧
    (run_client gene_name gd f).1
      = [RCEvent.lock_acquire 100,
         RCEvent.write_gene gene_name (run_client gene_name gd f).2,
         RCEvent.write_log gene_name (run_client gene_name gd f).2,
         RCEvent.lock_release, RCEvent.spawn_callback] ∧
    (slurm_run_client gene_name gd f).1
      = [RCEvent.lock_acquire 100,
         RCEvent.write_gene gene_name (run_client gene_name gd f).2,
         RCEvent.lock_release, RCEvent.spawn_callback] ∧
    (slurm_run_client gene_name gd f).2 = (run_client gene_name gd f).2 :=
  ⟨⟨rfl, rfl, rfl⟩, rfl, rfl, rfl⟩

/-!
Identity hashing: `get_pool_key` in `src/SLURM/Algorithm.py` (sha256 over
the raw payload bytes) versus the key set up by `Parameters.__init__` in
`src/DGA/Gene.py` (`hash_ = hash((timestamp, iteration))`, with the comment
"timestamp + iteration should be unique").  The digest functions themselves
(`hashlib.sha256`, python's `hash`) are opaque environment functions and
are passed in as parameters; what is modelled is what each key depends on.
-/

/-- `get_pool_key(gene)`: `hashlib.sha256(bytes(gene)).hexdigest()` — the
key is the digest of the payload bytes and of nothing else. -/
def get_pool_key (sha256hex : List Nat → String) (gene : List Nat) : String :=
  sha256hex gene

/-- `Algorithm.create_gene`: name the gene by its content key and write the
fresh record (`fitness = None`, `status = 'being tested'`) into the pool. -/
def create_gene {Fit : Type} (sha256hex : List Nat → String)
    (pool : List (String × GeneData Fit)) (gene : List Nat) :
    List (String × GeneData Fit) × String :=
  let gene_name := get_pool_key sha256hex gene
  (setEntry pool gene_name ⟨gene, none, "being tested"⟩, gene_name)

/-- A `Parameters` object as built by `Parameters.__init__`. -/
structure Parameters (V Fit : Type) where
  iteration : Int
  fitness : Option Fit
  timestamp : String
  values : List (String × V)
  hash_ : Int
  tested_ : Bool

/-- `Parameters.__init__`: the timestamp comes from the clock (passed in),
the stored values are the payload, `hash_ = hash((timestamp, iteration))`
with python's tuple hash passed in as `pyHash`, and `tested_` is set iff a
fitness was provided. -/
def Parameters.init {V Fit : Type} (pyHash : String × Int → Int)
    (timestamp : String) (iteration : Int) (values : List (String × V))
    (fitness : Option Fit) : Parameters V Fit :=
  { iteration := iteration, fitness := fitness, timestamp := timestamp,
    values := values, hash_ := pyHash (timestamp, iteration),
    tested_ := fitness.isSome }

/-- Claim C3 counterexample: the `Parameters` candidate key is computed from
`(timestamp, iteration)` alone; under an admissible hash environment, two
records with identical payloads created at different timestamps receive
different keys, so the key is time-based, not a pure function of the
payload bytes. -/
theorem claim3_content_address_counterexample :
    ¬ ∀ (pyHash : String × Int → Int) (t1 t2 : String) (i : Int)
        (values : List (String × Int)) (fitness : Option Int),
        (Parameters.init pyHash t1 i values fitness).hash_
          = (Parameters.init pyHash t2 i values fitness).hash_ := by
  intro h
  exact absurd
    (h (fun p => if p.1 = "00:00:00" then 0 else 1) "00:00:00" "00:00:01" 0 [] none)
    (by decide)

/-- Claim C3 amended: `get_pool_key` is a deterministic pure function of the
payload bytes, and creating a gene with an identical payload twice collapses
to one pool entry under the same key; the `Parameters` key of `DGA/Gene.py`,
by contrast, equals `hash((timestamp, iteration))` and ignores the payload
entirely, so it is time- and sequence-based rather than content-addressed. -/
theorem claim3_content_address {Fit : Type} (sha256hex : List Nat → String)
    (pool : List (String × GeneData Fit)) (gene : List Nat)
    (pyHash : String × Int → Int) (t : String) (i : Int)
    (values values2 : List (String × Int)) (fitness fitness2 : Option Int) :
    get_pool_key sha256hex gene = get_pool_key sha256hex gene ∧
    (create_gene sha256hex (create_gene sha256hex pool gene).1 gene).1
      = (create_gene sha256hex pool gene).1 ∧
    (create_gene sha256hex (create_gene sha256hex pool gene).1 gene).2
      = (create_gene sha256hex pool gene).2 ∧
    (Parameters.init pyHash t i values fitness).hash_ = pyHash (t, i) ∧
    (Parameters.init pyHash t i values fitness).hash_
      = (Parameters.init pyHash t i values2 fitness2).hash_ := by
  refine ⟨rfl, ?_, rfl, rfl, rfl⟩
  show setEntry (setEntry pool (get_pool_key sha256hex gene) ⟨gene, none, "being tested"⟩)
      (get_pool_key sha256hex gene) ⟨gene, none, "being tested"⟩
    = setEntry pool (get_pool_key sha256hex gene) ⟨gene, none, "being tested"⟩
  exact setEntry_setEntry_same pool _ _ _
